import Mathlib

/-!
Shallow embedding of the scheduling engine in `src/agents/scheduler_agent.py`
(repository SmartLifePlanner), together with theorems settling the spec claims
about it.

Modelling conventions:
* Python strings are Lean `String`s; string algorithms (`str.split`, `in`,
  `int(...)`, f-string `{:02d}` formatting) are re-implemented on `List Char`
  so that proofs can proceed structurally.  Only the ASCII behaviour of
  Python `int()` is modelled (whitespace stripping, optional sign, digits
  with single interior underscores); no claim depends on non-ASCII digits.
* Python dict-shaped records (`task`, `meal`, meal-day) are structures whose
  optional fields are `Option`-typed; `none` models an absent key, so
  `dict.get(k, default)` becomes `Option.getD`.
* The engine's `schedule` dict is an insertion-ordered association list
  `List (String × List Event)`; Python 3.7+ dicts preserve insertion order,
  which the iteration order of the source relies on.
* A Python `KeyError` (reading `schedule[day]` for a missing key) is modelled
  by `Option`: `create_schedule` returns `none` exactly when the source would
  raise.
* Python `//` and `%` on integers are floor division/modulo; for the positive
  divisors used by the source (24, 60) these agree with Lean's Euclidean
  `Int` division `/` and `%`, which are used directly.
* `list.sort(key=...)` in Python is a stable sort; it is modelled by a stable
  insertion sort (`isortEvents`).  A stable sort's output is uniquely
  determined by the key order and the input order, so any stable sort agrees
  with it.
-/

/-! ### Python string primitives -/

/-- Characters stripped by Python `int(str)`: space, tab, newline, carriage
return, vertical tab, form feed. -/
def isPySpace (c : Char) : Bool :=
  c = ' ' || c = '\t' || c = '\n' || c = '\r' || c.toNat = 11 || c.toNat = 12

/-- Accumulate decimal digits, allowing a single underscore between two
digits (Python 3 integer-literal grammar). -/
def digitsValAux (acc : Nat) : List Char → Option Nat
  | [] => some acc
  | c :: rest =>
    if c.isDigit then digitsValAux (acc * 10 + (c.toNat - 48)) rest
    else if c = '_' then
      match rest with
      | [] => none
      | d :: rest2 =>
        if d.isDigit then digitsValAux (acc * 10 + (d.toNat - 48)) rest2 else none
    else none

/-- Value of a non-empty digit run (with optional interior underscores). -/
def digitsVal : List Char → Option Nat
  | [] => none
  | c :: rest => if c.isDigit then digitsValAux (c.toNat - 48) rest else none

/-- Python `int(s)` on ASCII input: strip whitespace, optional sign, digit
run; `none` models `ValueError`. -/
def pyIntChars (l : List Char) : Option Int :=
  let l := ((l.dropWhile isPySpace).reverse.dropWhile isPySpace).reverse
  match l with
  | '+' :: rest => (digitsVal rest).map (fun n => (n : Int))
  | '-' :: rest => (digitsVal rest).map (fun n => -(n : Int))
  | rest => (digitsVal rest).map (fun n => (n : Int))

/-- Python `s.split(sep)` for a one-character separator. -/
def splitChar (sep : Char) : List Char → List (List Char)
  | [] => [[]]
  | c :: rest =>
    let gs := splitChar sep rest
    if c = sep then [] :: gs
    else
      match gs with
      | [] => [[c]]
      | g :: gs2 => (c :: g) :: gs2

/-- Decimal digit characters of `n`, most significant first (fuelled so the
definition is structurally recursive and kernel-reducible). -/
def natCharsAux : Nat → Nat → List Char
  | 0, _ => []
  | fuel + 1, n =>
    if n < 10 then [Nat.digitChar n]
    else natCharsAux fuel (n / 10) ++ [Nat.digitChar (n % 10)]

def natChars (n : Nat) : List Char := natCharsAux (n + 1) n

/-- Python f-string `{:02d}` formatting of a non-negative integer: decimal
digits left-padded with zeros to width 2.  (The engine only ever formats
values below 100, where a single pad character suffices.) -/
def format02 (n : Nat) : String :=
  if n < 10 then ⟨'0' :: natChars n⟩ else ⟨natChars n⟩

/-- True iff the string has shape `DD:DD` — exactly two decimal digits, a
colon, two decimal digits (the zero-padded `"HH:MM"` shape of the spec). -/
def isHHMM (s : String) : Bool :=
  match s.data with
  | [a, b, c, d, e] => a.isDigit && b.isDigit && c = ':' && d.isDigit && e.isDigit
  | _ => false

/-! ### Time arithmetic (source lines 21–38) -/

/-- `DAYS` list of the source (line 18). -/
def DAYS : List String :=
  ["Monday", "Tuesday", "Wednesday", "Thursday", "Friday", "Saturday", "Sunday"]

/-- `time_str_to_minutes`: split on `":"`, parse parts 0 and 1 with `int()`;
any failure (missing colon, non-numeric part) is caught and yields 0. -/
def time_str_to_minutes (t : String) : Int :=
  match splitChar ':' t.data with
  | p0 :: p1 :: _ =>
    match pyIntChars p0, pyIntChars p1 with
    | some a, some b => a * 60 + b
    | _, _ => 0
  | _ => 0

/-- `minutes_to_time_str`: `h = (m // 60) % 24`, `mm = m % 60`, formatted as
`f"{h:02d}:{mm:02d}"`.  Python floor `//`/`%` agree with Lean's Euclidean
`/`/`%` on `Int` for the positive divisors 60 and 24 used here. -/
def minutes_to_time_str (m : Int) : String :=
  let h := (m / 60) % 24
  let mm := m % 60
  format02 h.toNat ++ ":" ++ format02 mm.toNat

/-- `overlap`: `(a_start < b_end) and (b_start < a_end)` with
`a_end = a_start + a_dur`, `b_end = b_start + b_dur`. -/
def overlap (a_start a_dur b_start b_dur : Int) : Bool :=
  (a_start < b_start + b_dur) && (b_start < a_start + a_dur)

/-! ### Data model -/

namespace SchedulerAgent

/-- Scheduled event, as built by `SchedulerAgent._create_event_local`. -/
structure Event where
  title : String
  start_time : String
  duration_minutes : Int
  day : String
  type : String
deriving Repr, DecidableEq, Inhabited

/-- Proposed task record; `none` fields model absent dict keys. -/
structure Task where
  title : Option String
  duration_minutes : Option Int
  preferred_time_block : Option String
deriving Repr, DecidableEq, Inhabited

/-- One meal entry of a meal-day record. -/
structure Meal where
  type : Option String
  name : Option String
  duration_minutes : Option Int
deriving Repr, DecidableEq, Inhabited

/-- Proposed meal-day record. -/
structure MealDay where
  day : Option String
  day_name : Option String
  day_index : Option Int
  meals : List Meal
deriving Repr, DecidableEq, Inhabited

/-- The engine's per-run schedule dict: insertion-ordered association list
from weekday name to that day's event list. -/
def Schedule : Type := List (String × List Event)

/-- Result record of `create_schedule`. -/
structure SchedResult where
  schedule : List (String × List Event)
  conflicts_resolved : Nat
  total_events : Nat
deriving Repr, DecidableEq, Inhabited

/-! ### Day registry and slot suggestion (source lines 44–61) -/

/-- The `self.time_map` dict of `SchedulerAgent.__init__`. -/
def time_map_entries : List (String × String) :=
  [("morning", "09:00"), ("afternoon", "14:00"), ("evening", "18:00"),
   ("breakfast", "08:00"), ("lunch", "12:30"), ("dinner", "19:00")]

/-- `self.time_map.get(k)` — dict lookup. -/
def time_map (k : String) : Option String :=
  (time_map_entries.find? (fun p => p.1 == k)).map (fun p => p.2)

/-- Day-dependent heuristic default of `_suggest_time_slot`:
`idx = DAYS.index(day) if day in DAYS else 0`,
`base_hour = 9 + (idx % 3) * 2`, formatted `f"{base_hour:02d}:00"`. -/
def defaultDaySlot (day : String) : String :=
  let idx := (DAYS.findIdx? (fun d => d == day)).getD 0
  let base_hour := 9 + (idx % 3) * 2
  format02 base_hour ++ ":00"

/-- `SchedulerAgent._suggest_time_slot`.  Python truthiness: an empty string
is falsy, so both guards require a non-empty `preferred_time`. -/
def suggest_time_slot (day : String) (_duration_minutes : Int)
    (preferred_time : Option String) : String :=
  match preferred_time with
  | some pt =>
    if pt.data ≠ [] ∧ pt.data.contains ':' then pt
    else if pt.data ≠ [] ∧ (time_map pt).isSome then (time_map pt).getD ""
    else defaultDaySlot day
  | none => defaultDaySlot day

/-! ### Slot resolver (source lines 63–81) -/

/-- `SchedulerAgent._detect_conflicts`: every already-placed event of the
day whose interval overlaps the candidate interval. -/
def detect_conflicts (schedule_for_day : List Event) (start_time : String)
    (duration_minutes : Int) : List Event :=
  let s_min := time_str_to_minutes start_time
  schedule_for_day.filter (fun ev =>
    overlap s_min duration_minutes (time_str_to_minutes ev.start_time) ev.duration_minutes)

/-- `SchedulerAgent._create_event_local`. -/
def create_event_local (title start_time : String) (duration_minutes : Int)
    (day type : String) : Event :=
  { title := title, start_time := start_time, duration_minutes := duration_minutes,
    day := day, type := type }

/-- The probe loop shared by both conflict-resolution branches of
`create_schedule`: try each minute offset in order, return the first
candidate start with no conflicts. -/
def findFreeShift (evs : List Event) (base dur : Int) : List Int → Option String
  | [] => none
  | off :: rest =>
    let cand := minutes_to_time_str (base + off)
    if (detect_conflicts evs cand dur).isEmpty then some cand
    else findFreeShift evs base dur rest

/-- Conflict handling of `create_schedule` for one candidate event: if the
desired start conflicts, probe `probes`; on success relocate and charge 1,
on exhaustion keep the original start and charge the number of conflicting
events.  Returns the final start time and the `conflicts_resolved` delta. -/
def resolveStart (evs : List Event) (start : String) (dur : Int)
    (probes : List Int) : String × Nat :=
  let conflicts := detect_conflicts evs start dur
  if conflicts.isEmpty then (start, 0)
  else
    match findFreeShift evs (time_str_to_minutes start) dur probes with
    | some cand => (cand, 1)
    | none => (start, conflicts.length)

/-! ### Task placement (source lines 108–150) -/

/-- Desired start of a task: `self.time_map.get(preferred_block,
self._suggest_time_slot(day, ..., preferred_block))` with
`preferred_block = t.get("preferred_time_block", "morning")`. -/
def taskPreferredStart (day : String) (t : Task) : String :=
  let preferred_block := t.preferred_time_block.getD "morning"
  match time_map preferred_block with
  | some v => v
  | none => suggest_time_slot day (t.duration_minutes.getD 60) (some preferred_block)

/-- Probe offsets of the task loop: `range(1, 6)` hourly shifts. -/
def taskProbes : List Int := [60, 120, 180, 240, 300]

/-- Event appended for one task, plus the `conflicts_resolved` delta. -/
def placedTaskEvent (day : String) (evs : List Event) (t : Task) : Event × Nat :=
  let duration := t.duration_minutes.getD 60
  let sd := resolveStart evs (taskPreferredStart day t) duration taskProbes
  (create_event_local (t.title.getD "Task") sd.1 duration day "task", sd.2)

/-- One iteration of the inner task-placement loop on the running
`(day events, conflicts_resolved)` state. -/
def placeTaskStep (day : String) (st : List Event × Nat) (t : Task) :
    List Event × Nat :=
  (st.1 ++ [(placedTaskEvent day st.1 t).1], st.2 + (placedTaskEvent day st.1 t).2)

/-- Pure event-list component of placing a task list on one day (the
conflict counter does not influence placement). -/
def placeEvs (day : String) (evs : List Event) : List Task → List Event
  | [] => evs
  | t :: ts => placeEvs day (evs ++ [(placedTaskEvent day evs t).1]) ts

/-- The outer task loop: day `i` receives `per_day + 1` tasks when
`i < remainder`, else `per_day`, consumed from the front of `rem`
(the `if t_idx >= n_tasks: break` guard is the truncation of `take`). -/
def taskDays (per_day remainder : Nat) :
    Nat → List String → List Task → Nat → (List (String × List Event)) × Nat
  | _, [], _, cr => ([], cr)
  | i, d :: ds, rem, cr =>
    let count := per_day + (if i < remainder then 1 else 0)
    let st := (rem.take count).foldl (placeTaskStep d) ([], cr)
    let rest := taskDays per_day remainder (i + 1) ds (rem.drop count) st.2
    ((d, st.1) :: rest.1, rest.2)

/-- The whole `if task_list:` block of `create_schedule`: a fresh empty
per-day schedule when there are no tasks, else the round-robin quota walk. -/
def taskPhase (days : List String) (task_list : List Task) :
    (List (String × List Event)) × Nat :=
  if task_list.isEmpty then (days.map (fun d => (d, [])), 0)
  else
    taskDays (task_list.length / days.length) (task_list.length % days.length)
      0 days task_list 0

/-! ### Meal placement (source lines 153–189) -/

/-- Python `a or b` over the two optional day-name fields: a present but
empty string is falsy and falls through. -/
def pyOrStr (a b : Option String) : Option String :=
  let t : Option String → Option String := fun o =>
    match o with
    | some s => if s = "" then none else some s
    | none => none
  match t a with
  | some s => some s
  | none => t b

/-- Day resolution of the meal loop: truthy `day`/`day_name` wins verbatim
(unvalidated!); else a 1-based `day_index` into the active days when in
range; else the first active day. -/
def resolveMealDay (days : List String) (md : MealDay) : String :=
  match pyOrStr md.day md.day_name with
  | some d => d
  | none =>
    let idx := md.day_index.getD 1
    if 1 ≤ idx ∧ idx ≤ (days.length : Int) then days.getD (idx - 1).toNat ""
    else days.getD 0 ""

/-- `int(meal.get("duration_minutes", 30)) if meal.get("duration_minutes")
else 30` — a missing, `None`, or zero (falsy) duration becomes 30. -/
def mealDuration (meal : Meal) : Int :=
  match meal.duration_minutes with
  | some d => if d = 0 then 30 else d
  | none => 30

/-- Desired start of a meal: `self.time_map.get(m_type, "19:00")`. -/
def mealStart (meal : Meal) : String :=
  (time_map (meal.type.getD "dinner")).getD "19:00"

/-- Probe offsets of the meal loop: `[30, -30, 60, -60]`. -/
def mealProbes : List Int := [30, -30, 60, -60]

/-- Event appended for one meal, plus the `conflicts_resolved` delta. -/
def placedMealEvent (day : String) (evs : List Event) (meal : Meal) :
    Event × Nat :=
  let m_type := meal.type.getD "dinner"
  let duration := mealDuration meal
  let sd := resolveStart evs (mealStart meal) duration mealProbes
  (create_event_local ((meal.name.getD "Meal") ++ " (" ++ m_type ++ ")")
     sd.1 duration day "meal", sd.2)

/-- `schedule[day]` — dict read; `none` models the `KeyError` raised when
`day` is not an active-day key. -/
def lookupDay (s : List (String × List Event)) (d : String) :
    Option (List Event) :=
  (s.find? (fun p => p.1 == d)).map (fun p => p.2)

/-- `schedule[day].append(event)` — append to every entry whose key matches
(keys are distinct in practice). -/
def appendDay (s : List (String × List Event)) (d : String) (e : Event) :
    List (String × List Event) :=
  s.map (fun p => if p.1 == d then (p.1, p.2 ++ [e]) else p)

/-- The inner `for meal in meals` loop for one resolved day. -/
def placeMealsOfDay (day : String) :
    List (String × List Event) → Nat → List Meal →
    Option (List (String × List Event) × Nat)
  | sched, cr, [] => some (sched, cr)
  | sched, cr, m :: ms =>
    match lookupDay sched day with
    | none => none
    | some evs =>
      placeMealsOfDay day (appendDay sched day (placedMealEvent day evs m).1)
        (cr + (placedMealEvent day evs m).2) ms

/-- The outer `for md in meal_days` loop. -/
def mealPhase (days : List String) :
    List (String × List Event) → Nat → List MealDay →
    Option (List (String × List Event) × Nat)
  | sched, cr, [] => some (sched, cr)
  | sched, cr, md :: mds =>
    match placeMealsOfDay (resolveMealDay days md) sched cr md.meals with
    | none => none
    | some (sched1, cr1) => mealPhase days sched1 cr1 mds

/-! ### Final per-day sort (source lines 192–194) -/

/-- Sort key: `time_str_to_minutes(e.get("start_time", "00:00"))`. -/
def evKey (e : Event) : Int := time_str_to_minutes e.start_time

/-- Stable insertion of an event into an already-sorted list: `e` goes
before the first element whose key is ≥ its own. -/
def insertEv (e : Event) : List Event → List Event
  | [] => [e]
  | x :: xs => if evKey e ≤ evKey x then e :: x :: xs else x :: insertEv e xs

/-- Stable insertion sort by `evKey` — extensionally equal to Python's
stable `list.sort(key=...)`. -/
def isortEvents : List Event → List Event
  | [] => []
  | x :: xs => insertEv x (isortEvents xs)

/-! ### The engine (source lines 86–208) -/

/-- `SchedulerAgent.create_schedule`.  The input lists are already in their
normalized (bare-list) shape; `none` models the uncaught `KeyError` raised
when a meal-day's explicit day name is not an active-day key. -/
def create_schedule (tasks : List Task) (meal_plan : List MealDay)
    (plan_days : Int) : Option SchedResult :=
  let days := DAYS.take (max 1 (min 7 plan_days)).toNat
  let tp := taskPhase days tasks
  match mealPhase days tp.1 tp.2 meal_plan with
  | none => none
  | some (sched2, cr2) =>
    let sched3 := sched2.map (fun p => (p.1, isortEvents p.2))
    some { schedule := sched3, conflicts_resolved := cr2,
           total_events := (sched3.map (fun p => p.2.length)).sum }

/-! ### Auxiliary observations used in theorem statements -/

/-- True iff the string is exactly two decimal digits. -/
def isTwoDigits (s : String) : Bool :=
  match s.data with
  | [a, b] => a.isDigit && b.isDigit
  | _ => false

/-- All events of all days have a `DD:DD`-shaped start time. -/
def allEventsHHMM (s : List (String × List Event)) : Bool :=
  s.all (fun p => p.2.all (fun e => isHHMM e.start_time))

/-- Total number of events across the per-day lists. -/
def totalLen (s : List (String × List Event)) : Nat :=
  (s.map (fun p => p.2.length)).sum

/-- Sum of the round-robin quotas of days `i, i+1, ..., i+j-1` for a walk
with base quota `pd` and `rq` remainder days. -/
def sumQuota (pd rq : Nat) : Nat → Nat → Nat
  | _, 0 => 0
  | i, j + 1 => (pd + (if i < rq then 1 else 0)) + sumQuota pd rq (i + 1) j

end SchedulerAgent

namespace SchedulerAgent

/-! ## Claim C2 — zero-duration overlap -/

/-- C2 counterexample: the claim says `overlap(aStart, 0, bStart, bDur)` is
false for ALL integer inputs, but a zero-duration event whose start lies
strictly inside the other interval is flagged: `overlap 5 0 3 10 = true`. -/
theorem overlap_zero_duration_counterexample : overlap 5 0 3 10 = true := by
  decide

/-- C2 (amended): an event of duration 0 overlaps another event exactly when
its start time lies strictly inside the other event's half-open interval; in
particular it never overlaps when it starts at or before the other's start,
at or after the other's end, or when both durations are 0. -/
theorem overlap_zero_duration_iff (a b d : Int) :
    (overlap a 0 b d = true ↔ b < a ∧ a < b + d) ∧
    (overlap a d b 0 = true ↔ a < b ∧ b < a + d) := by
  constructor <;> · simp only [overlap, Bool.and_eq_true, decide_eq_true_eq]; omega

/-- C2 witness: instantiation of the amended statement at concrete inputs. -/
theorem overlap_zero_duration_iff_witness :
    (overlap 5 0 3 10 = true ↔ (3 : Int) < 5 ∧ (5 : Int) < 3 + 10) ∧
    (overlap 5 10 3 0 = true ↔ (5 : Int) < 3 ∧ (3 : Int) < 5 + 10) :=
  overlap_zero_duration_iff 5 3 10

/-! ## Claim C9 — half-open interval overlap test -/

/-- C9: `overlap` returns true iff `startA < startB + durB` and
`startB < startA + durA` (the half-open interval intersection formula of the
spec); the boundary pair 09:00/60 vs 10:00/30 is not flagged, while
09:00/61 vs 10:00/30 is. -/
theorem overlap_iff_halfopen :
    (∀ a da b db : Int, overlap a da b db = true ↔ a < b + db ∧ b < a + da) ∧
    overlap (time_str_to_minutes "09:00") 60 (time_str_to_minutes "10:00") 30 = false ∧
    overlap (time_str_to_minutes "09:00") 61 (time_str_to_minutes "10:00") 30 = true := by
  refine ⟨fun a da b db => ?_, by decide, by decide⟩
  simp only [overlap, Bool.and_eq_true, decide_eq_true_eq]

/-! ## String-format lemmas -/

/-- Parsing/format facts for two-digit formatting of values below 100. -/
theorem fmt_facts : ∀ n, n < 100 →
    (pyIntChars (format02 n).data = some (n : Int) ∧
     (∀ c ∈ (format02 n).data, c ≠ ':') ∧
     isTwoDigits (format02 n) = true) := by decide

/-- Splitting a separator-free list yields a single part. -/
theorem splitChar_no_sep {sep : Char} :
    ∀ {l : List Char}, (∀ c ∈ l, c ≠ sep) → splitChar sep l = [l]
  | [], _ => rfl
  | c :: rest, h => by
    have hc : c ≠ sep := h c (List.mem_cons_self c rest)
    have ih := splitChar_no_sep (fun x hx => h x (List.mem_cons_of_mem c hx))
    simp [splitChar, hc, ih]

/-- Splitting around the first separator occurrence. -/
theorem splitChar_append (sep : Char) :
    ∀ (A : List Char) (B : List Char), (∀ c ∈ A, c ≠ sep) →
      splitChar sep (A ++ sep :: B) = A :: splitChar sep B
  | [], B, _ => by simp [splitChar]
  | c :: A, B, h => by
    have hc : c ≠ sep := h c (by simp)
    have ih := splitChar_append sep A B (fun x hx => h x (by simp [hx]))
    simp [splitChar, hc, ih]

theorem isTwoDigits_exists {s : String} (h : isTwoDigits s = true) :
    ∃ x y, s.data = [x, y] ∧ x.isDigit = true ∧ y.isDigit = true := by
  unfold isTwoDigits at h
  split at h
  next x y heq => exact ⟨x, y, heq, by simpa [Bool.and_eq_true] using h⟩
  next => simp at h

/-- Two two-digit strings joined by a colon are `DD:DD`-shaped. -/
theorem isHHMM_append (a b : String) (ha : isTwoDigits a = true)
    (hb : isTwoDigits b = true) : isHHMM (a ++ ":" ++ b) = true := by
  obtain ⟨x, y, hxy, hx, hy⟩ := isTwoDigits_exists ha
  obtain ⟨u, v, huv, hu, hv⟩ := isTwoDigits_exists hb
  have hd2 : (a ++ ":" ++ b).data = [x, y, ':', u, v] := by
    simp [String.data_append, hxy, huv]
  simp [isHHMM, hd2, hx, hy, hu, hv]

/-- Every output of `minutes_to_time_str` is `DD:DD`-shaped. -/
theorem isHHMM_minutes (m : Int) : isHHMM (minutes_to_time_str m) = true := by
  have h1 : ((m / 60) % 24).toNat < 100 := by omega
  have h2 : (m % 60).toNat < 100 := by omega
  exact isHHMM_append _ _ (fmt_facts _ h1).2.2 (fmt_facts _ h2).2.2

/-! ## Claim C10 — totality of minutesToTime over all integers -/

/-- C10: `minutes_to_time_str` is total over all integers with floor/Euclidean
semantics — parsing its output back recovers the input modulo 1440 (hour =
floor(m/60) mod 24, minute = m mod 60) — and `-30` wraps to `"23:30"`, so a
negative probe candidate would wrap to a late-evening clock time on the same
day rather than failing. -/
theorem minutes_to_time_str_total_wrap :
    (∀ m : Int, time_str_to_minutes (minutes_to_time_str m) = m % 1440) ∧
    minutes_to_time_str (-30) = "23:30" := by
  refine ⟨fun m => ?_, by decide⟩
  have h1 : ((m / 60) % 24).toNat < 100 := by omega
  have h2 : (m % 60).toNat < 100 := by omega
  obtain ⟨p1, pc1, -⟩ := fmt_facts _ h1
  obtain ⟨p2, pc2, -⟩ := fmt_facts _ h2
  have hd : (minutes_to_time_str m).data =
      (format02 ((m / 60) % 24).toNat).data ++ ':' ::
        (format02 (m % 60).toNat).data := by
    simp [minutes_to_time_str, String.data_append]
  unfold time_str_to_minutes
  rw [hd, splitChar_append _ _ _ pc1, splitChar_no_sep pc2]
  simp only [p1, p2]
  omega

/-! ## Schedule-key lemmas -/

theorem appendDay_keys (s : List (String × List Event)) (d : String) (e : Event) :
    (appendDay s d e).map Prod.fst = s.map Prod.fst := by
  induction s with
  | nil => rfl
  | cons p rest ih =>
    simp only [appendDay, List.map_cons] at ih ⊢
    refine congrArg₂ _ ?_ ih
    split <;> rfl

theorem lookupDay_of_mem {s : List (String × List Event)} {d : String}
    (h : d ∈ s.map Prod.fst) : ∃ evs, lookupDay s d = some evs := by
  induction s with
  | nil => simp at h
  | cons p rest ih =>
    by_cases hp : p.1 == d
    · exact ⟨p.2, by simp [lookupDay, List.find?, hp]⟩
    · have hd : d ∈ rest.map Prod.fst := by
        rcases (List.mem_cons).1 h with h1 | h2
        · exact absurd (by simp [h1]) hp
        · exact h2
      obtain ⟨evs, hevs⟩ := ih hd
      exact ⟨evs, by simpa [lookupDay, List.find?, hp] using hevs⟩

theorem taskDays_keys (per_day remainder : Nat) :
    ∀ (ds : List String) (i : Nat) (rem : List Task) (cr : Nat),
      (taskDays per_day remainder i ds rem cr).1.map Prod.fst = ds
  | [], _, _, _ => rfl
  | d :: ds, i, rem, cr => by
    simp only [taskDays, List.map_cons]
    exact congrArg _ (taskDays_keys per_day remainder ds (i + 1) _ _)

theorem taskPhase_keys (days : List String) (ts : List Task) :
    (taskPhase days ts).1.map Prod.fst = days := by
  unfold taskPhase
  split
  · simp [Function.comp_def]
  · exact taskDays_keys _ _ days 0 ts 0

theorem placeMealsOfDay_keys :
    ∀ (ms : List Meal) (sched : List (String × List Event)) (cr : Nat)
      (day : String) (s2 : List (String × List Event)) (cr2 : Nat),
      placeMealsOfDay day sched cr ms = some (s2, cr2) →
      s2.map Prod.fst = sched.map Prod.fst
  | [], sched, cr, day, s2, cr2 => by
    intro h
    simp only [placeMealsOfDay] at h
    obtain ⟨h1, -⟩ := Prod.mk.injEq .. ▸ (Option.some.injEq .. ▸ h)
    exact h1 ▸ rfl
  | m :: ms, sched, cr, day, s2, cr2 => by
    intro h
    simp only [placeMealsOfDay] at h
    split at h
    · exact absurd h (by simp)
    · have := placeMealsOfDay_keys ms _ _ day s2 cr2 h
      rw [this, appendDay_keys]

theorem mealPhase_keys (days : List String) :
    ∀ (mds : List MealDay) (sched : List (String × List Event)) (cr : Nat)
      (s2 : List (String × List Event)) (cr2 : Nat),
      mealPhase days sched cr mds = some (s2, cr2) →
      s2.map Prod.fst = sched.map Prod.fst
  | [], sched, cr, s2, cr2 => by
    intro h
    simp only [mealPhase, Option.some.injEq, Prod.mk.injEq] at h
    rw [← h.1]
  | md :: mds, sched, cr, s2, cr2 => by
    intro h
    simp only [mealPhase] at h
    split at h
    · exact absurd h (by simp)
    next s1 cr1 heq =>
      rw [mealPhase_keys days mds s1 cr1 s2 cr2 h,
        placeMealsOfDay_keys md.meals sched cr _ s1 cr1 heq]

theorem placeMealsOfDay_some :
    ∀ (ms : List Meal) (sched : List (String × List Event)) (cr : Nat)
      (day : String), day ∈ sched.map Prod.fst →
      ∃ s2 cr2, placeMealsOfDay day sched cr ms = some (s2, cr2)
  | [], sched, cr, day, _ => ⟨sched, cr, rfl⟩
  | m :: ms, sched, cr, day, h => by
    obtain ⟨evs, hevs⟩ := lookupDay_of_mem h
    have h2 : day ∈ (appendDay sched day (placedMealEvent day evs m).1).map Prod.fst := by
      rwa [appendDay_keys]
    obtain ⟨s2, cr2, hrec⟩ := placeMealsOfDay_some ms _ _ day h2
    exact ⟨s2, cr2, by simp only [placeMealsOfDay, hevs]; exact hrec⟩

theorem mealPhase_some (days : List String) :
    ∀ (mds : List MealDay) (sched : List (String × List Event)) (cr : Nat),
      sched.map Prod.fst = days →
      (∀ md ∈ mds, md.meals ≠ [] → resolveMealDay days md ∈ days) →
      ∃ s2 cr2, mealPhase days sched cr mds = some (s2, cr2)
  | [], sched, cr, _, _ => ⟨sched, cr, rfl⟩
  | md :: mds, sched, cr, hk, h => by
    have hstep : ∃ s1 cr1,
        placeMealsOfDay (resolveMealDay days md) sched cr md.meals = some (s1, cr1) := by
      cases hm : md.meals with
      | nil => exact ⟨sched, cr, rfl⟩
      | cons m ms =>
        have hmem : resolveMealDay days md ∈ sched.map Prod.fst := by
          rw [hk]; exact h md (List.mem_cons_self md mds) (by simp [hm])
        exact placeMealsOfDay_some (m :: ms) sched cr _ hmem
    obtain ⟨s1, cr1, hs1⟩ := hstep
    have hk1 : s1.map Prod.fst = days := by
      rw [placeMealsOfDay_keys md.meals sched cr _ s1 cr1 hs1, hk]
    obtain ⟨s2, cr2, hs2⟩ := mealPhase_some days mds s1 cr1 hk1
      (fun x hx hne => h x (List.mem_cons_of_mem md hx) hne)
    exact ⟨s2, cr2, by simp only [mealPhase, hs1]; exact hs2⟩

/-! ## Claim C1 — the engine never raises -/

/-- C1 counterexample: a meal-day whose explicit `day` field names a weekday
outside the active-day set (here `"Sunday"` with a 1-day plan) makes
`create_schedule` read `schedule["Sunday"]`, a missing key — an uncaught
`KeyError` in the source, modelled as `none`. -/
theorem create_schedule_keyerror_on_unknown_meal_day :
    create_schedule []
      [{ day := some "Sunday", day_name := none, day_index := none,
         meals := [{ type := none, name := none, duration_minutes := none }] }]
      1 = none := by rfl

/-- C1 (amended): `create_schedule` raises no exception and returns the
complete result structure for every input in which each meal-day record that
contains at least one meal resolves to an active day — i.e. its truthy
`day`/`day_name` field, when present, names an active weekday (the
`day_index` and default fallbacks always do).  A meal-day whose explicit day
names a weekday outside the active set, or an arbitrary string, raises
`KeyError` instead. -/
theorem create_schedule_isSome_of_meal_days_active
    (tasks : List Task) (meal_plan : List MealDay) (plan_days : Int)
    (h : ∀ md ∈ meal_plan, md.meals ≠ [] →
      resolveMealDay (DAYS.take (max 1 (min 7 plan_days)).toNat) md ∈
        DAYS.take (max 1 (min 7 plan_days)).toNat) :
    (create_schedule tasks meal_plan plan_days).isSome = true := by
  unfold create_schedule
  obtain ⟨s2, cr2, hs2⟩ :=
    mealPhase_some (DAYS.take (max 1 (min 7 plan_days)).toNat) meal_plan
      (taskPhase (DAYS.take (max 1 (min 7 plan_days)).toNat) tasks).1
      (taskPhase (DAYS.take (max 1 (min 7 plan_days)).toNat) tasks).2
      (taskPhase_keys _ _) h
  simp [hs2]

/-- C1 witness: a concrete in-range meal-day and task succeed. -/
theorem create_schedule_isSome_witness :
    (create_schedule
      [{ title := some "A", duration_minutes := some 60,
         preferred_time_block := some "morning" }]
      [{ day := some "Monday", day_name := none, day_index := none,
         meals := [{ type := some "breakfast", name := some "Eggs",
                     duration_minutes := none }] }]
      1).isSome = true :=
  create_schedule_isSome_of_meal_days_active _ _ _ (by decide)

/-! ## Claim C8 — no phantom days -/

/-- C8: the key list of the returned schedule is exactly the first
`min(7, max(1, plan_days))` weekday names, Monday-first, in order; every
active key is present (mapped to a possibly empty list by construction) and
no other weekday ever appears. -/
theorem active_day_keys (tasks : List Task) (meals : List MealDay)
    (p : Int) (r : SchedResult) (h : create_schedule tasks meals p = some r) :
    r.schedule.map Prod.fst = DAYS.take (min 7 (max 1 p)).toNat := by
  have hmm : (min 7 (max 1 p)).toNat = (max 1 (min 7 p)).toNat := by omega
  unfold create_schedule at h
  dsimp only at h
  split at h
  · exact absurd h (by simp)
  next s2 cr2 heq =>
    cases h
    rw [hmm]
    simp only [List.map_map]
    have : (Prod.fst ∘ fun q : String × List Event => (q.1, isortEvents q.2)) =
        Prod.fst := rfl
    rw [this, mealPhase_keys _ _ _ _ _ _ heq, taskPhase_keys]

/-- C8 witness: `plan_duration_days = 10` yields exactly the 7 weekday keys. -/
theorem active_day_keys_witness :
    ({ schedule := DAYS.map (fun d => (d, [])), conflicts_resolved := 0,
       total_events := 0 } : SchedResult).schedule.map Prod.fst
      = DAYS.take (min 7 (max 1 (10 : Int))).toNat :=
  active_day_keys [] [] 10 _ (by rfl)

/-! ## Claim C7 — probe sequences and conflict accounting -/

/-- The probe loop is a first-match search over the offset list. -/
theorem findFreeShift_eq_find (evs : List Event) (base dur : Int) :
    ∀ probes : List Int,
      findFreeShift evs base dur probes =
        (probes.find? (fun off =>
            (detect_conflicts evs (minutes_to_time_str (base + off)) dur).isEmpty)).map
          (fun off => minutes_to_time_str (base + off))
  | [] => rfl
  | o :: rest => by
    by_cases h : (detect_conflicts evs (minutes_to_time_str (base + o)) dur).isEmpty
    · simp [findFreeShift, List.find?, h]
    · simp only [Bool.not_eq_true] at h
      simp [findFreeShift, List.find?, h, findFreeShift_eq_find evs base dur rest]

/-- C7: when the desired slot of a task (resp. meal) conflicts, the engine
probes exactly the offsets +60,+120,+180,+240,+300 (resp. +30,-30,+60,-60)
minutes in that order, relocates to the first conflict-free candidate and
charges 1 to `conflicts_resolved`; if every probe conflicts, the event keeps
its original start time and the charge is the number of conflicting events
at the original slot. -/
theorem probe_sequence_resolution (day : String) (evs : List Event)
    (t : Task) (meal : Meal)
    (hT : detect_conflicts evs (taskPreferredStart day t)
            (t.duration_minutes.getD 60) ≠ [])
    (hM : detect_conflicts evs (mealStart meal) (mealDuration meal) ≠ []) :
    (placedTaskEvent day evs t =
      match ([60, 120, 180, 240, 300] : List Int).find? (fun off =>
          (detect_conflicts evs
            (minutes_to_time_str (time_str_to_minutes (taskPreferredStart day t) + off))
            (t.duration_minutes.getD 60)).isEmpty) with
      | some off =>
        (create_event_local (t.title.getD "Task")
           (minutes_to_time_str (time_str_to_minutes (taskPreferredStart day t) + off))
           (t.duration_minutes.getD 60) day "task", 1)
      | none =>
        (create_event_local (t.title.getD "Task") (taskPreferredStart day t)
           (t.duration_minutes.getD 60) day "task",
         (detect_conflicts evs (taskPreferredStart day t)
           (t.duration_minutes.getD 60)).length)) ∧
    (placedMealEvent day evs meal =
      match ([30, -30, 60, -60] : List Int).find? (fun off =>
          (detect_conflicts evs
            (minutes_to_time_str (time_str_to_minutes (mealStart meal) + off))
            (mealDuration meal)).isEmpty) with
      | some off =>
        (create_event_local ((meal.name.getD "Meal") ++ " (" ++ meal.type.getD "dinner" ++ ")")
           (minutes_to_time_str (time_str_to_minutes (mealStart meal) + off))
           (mealDuration meal) day "meal", 1)
      | none =>
        (create_event_local ((meal.name.getD "Meal") ++ " (" ++ meal.type.getD "dinner" ++ ")")
           (mealStart meal) (mealDuration meal) day "meal",
         (detect_conflicts evs (mealStart meal) (mealDuration meal)).length)) := by
  have hT2 : (detect_conflicts evs (taskPreferredStart day t)
      (t.duration_minutes.getD 60)).isEmpty = false := by
    simpa [List.isEmpty_iff] using hT
  have hM2 : (detect_conflicts evs (mealStart meal) (mealDuration meal)).isEmpty
      = false := by
    simpa [List.isEmpty_iff] using hM
  constructor
  · unfold placedTaskEvent resolveStart taskProbes
    dsimp only
    rw [hT2, findFreeShift_eq_find]
    cases hf : ([60, 120, 180, 240, 300] : List Int).find? (fun off =>
        (detect_conflicts evs
          (minutes_to_time_str (time_str_to_minutes (taskPreferredStart day t) + off))
          (t.duration_minutes.getD 60)).isEmpty) <;>
      simp [hf]
  · unfold placedMealEvent resolveStart mealProbes
    dsimp only
    rw [hM2, findFreeShift_eq_find]
    cases hf : ([30, -30, 60, -60] : List Int).find? (fun off =>
        (detect_conflicts evs
          (minutes_to_time_str (time_str_to_minutes (mealStart meal) + off))
          (mealDuration meal)).isEmpty) <;>
      simp [hf, mealStart]

/-- C7 witness: against a blocking 08:00–10:00 event, a morning task is
relocated by the first free +60-minute probe to 10:00 (charge 1), and a
breakfast meal by the second probe (-30) to 07:30 (charge 1). -/
theorem probe_sequence_resolution_witness :
    placedTaskEvent "Monday"
      [{ title := "X", start_time := "08:00", duration_minutes := 120,
         day := "Monday", type := "task" }]
      { title := some "T", duration_minutes := some 60,
        preferred_time_block := some "morning" }
        = (create_event_local "T" "10:00" 60 "Monday" "task", 1) ∧
    placedMealEvent "Monday"
      [{ title := "X", start_time := "08:00", duration_minutes := 120,
         day := "Monday", type := "task" }]
      { type := some "breakfast", name := some "Eggs", duration_minutes := some 30 }
        = (create_event_local "Eggs (breakfast)" "07:30" 30 "Monday" "meal", 1) := by
  have h := probe_sequence_resolution "Monday"
    [{ title := "X", start_time := "08:00", duration_minutes := 120,
       day := "Monday", type := "task" }]
    { title := some "T", duration_minutes := some 60,
      preferred_time_block := some "morning" }
    { type := some "breakfast", name := some "Eggs", duration_minutes := some 30 }
    (by decide) (by decide)
  exact ⟨h.1.trans (by decide), h.2.trans (by decide)⟩

/-! ## Claim C6 — per-day ordering invariant and stability -/

theorem insertEv_perm (e : Event) :
    ∀ l : List Event, (insertEv e l).Perm (e :: l)
  | [] => List.Perm.refl _
  | x :: xs => by
    unfold insertEv
    split
    · exact List.Perm.refl _
    · exact ((insertEv_perm e xs).cons x).trans (List.Perm.swap e x xs)

theorem isort_perm : ∀ l : List Event, (isortEvents l).Perm l
  | [] => List.Perm.refl _
  | x :: xs =>
    (insertEv_perm x (isortEvents xs)).trans ((isort_perm xs).cons x)

theorem insertEv_pairwise (e : Event) :
    ∀ {l : List Event},
      l.Pairwise (fun a b => evKey a ≤ evKey b) →
      (insertEv e l).Pairwise (fun a b => evKey a ≤ evKey b) := by
  intro l
  induction l with
  | nil => intro _; simp [insertEv]
  | cons x xs ih =>
    intro h
    rw [List.pairwise_cons] at h
    unfold insertEv
    split
    next hle =>
      refine List.pairwise_cons.2 ⟨?_, List.pairwise_cons.2 h⟩
      intro b hb
      rcases List.mem_cons.1 hb with rfl | hb2
      · exact hle
      · exact le_trans hle (h.1 b hb2)
    next hgt =>
      push_neg at hgt
      refine List.pairwise_cons.2 ⟨?_, ih h.2⟩
      intro b hb
      have : b ∈ e :: xs := (insertEv_perm e xs).mem_iff.1 hb
      rcases List.mem_cons.1 this with rfl | hb2
      · exact le_of_lt hgt
      · exact h.1 b hb2

theorem isort_sorted :
    ∀ l : List Event, (isortEvents l).Pairwise (fun a b => evKey a ≤ evKey b)
  | [] => List.Pairwise.nil
  | x :: xs => insertEv_pairwise x (isort_sorted xs)

theorem filter_insertEv_pos (e : Event) (k : Int) (he : evKey e = k) :
    ∀ l : List Event,
      (insertEv e l).filter (fun x => evKey x == k)
        = e :: l.filter (fun x => evKey x == k)
  | [] => by simp [insertEv, List.filter, he]
  | x :: xs => by
    unfold insertEv
    split
    next hle => simp [List.filter, he]
    next hgt =>
      push_neg at hgt
      have hx : (evKey x == k) = false := by
        rw [he] at hgt
        simp [Int.ne_of_lt hgt]
      simp only [List.filter, hx]
      exact filter_insertEv_pos e k he xs

theorem filter_insertEv_neg (e : Event) (k : Int) (he : ¬ evKey e = k) :
    ∀ l : List Event,
      (insertEv e l).filter (fun x => evKey x == k)
        = l.filter (fun x => evKey x == k)
  | [] => by
    have he2 : (evKey e == k) = false := by simp [he]
    simp [insertEv, List.filter, he2]
  | x :: xs => by
    have he2 : (evKey e == k) = false := by simp [he]
    unfold insertEv
    split
    next hle => simp [List.filter, he2]
    next hgt =>
      simp only [List.filter]
      cases hx : (evKey x == k) <;>
        simp [hx, filter_insertEv_neg e k he xs]

theorem isort_stable :
    ∀ (l : List Event) (k : Int),
      (isortEvents l).filter (fun x => evKey x == k)
        = l.filter (fun x => evKey x == k)
  | [], _ => rfl
  | x :: xs, k => by
    by_cases hx : evKey x = k
    · rw [isortEvents, filter_insertEv_pos x k hx, isort_stable xs k]
      simp [List.filter, beq_iff_eq, hx]
    · have hx2 : (evKey x == k) = false := by simp [hx]
      rw [isortEvents, filter_insertEv_neg x k hx, isort_stable xs k]
      simp [List.filter, hx2]

/-- C6: in every returned schedule, each day's event list is non-decreasing
by `time_str_to_minutes(start_time)`, and the sort applied by the engine is
stable — for every key value, the events with that key appear in their
insertion order. -/
theorem per_day_sorted_stable (tasks : List Task) (meals : List MealDay)
    (p : Int) (r : SchedResult) (h : create_schedule tasks meals p = some r) :
    (∀ pr ∈ r.schedule, pr.2.Pairwise (fun a b : Event =>
        time_str_to_minutes a.start_time ≤ time_str_to_minutes b.start_time)) ∧
    (∀ (l : List Event) (k : Int),
      (isortEvents l).filter (fun e => time_str_to_minutes e.start_time == k)
        = l.filter (fun e => time_str_to_minutes e.start_time == k)) := by
  constructor
  · intro pr hpr
    unfold create_schedule at h
    dsimp only at h
    split at h
    · exact absurd h (by simp)
    next s2 cr2 heq =>
      cases h
      obtain ⟨q, hq, rfl⟩ := List.mem_map.1 hpr
      exact isort_sorted q.2
  · intro l k
    exact isort_stable l k

/-- C6 witness: the spec's concrete scenario — 3 morning/afternoon tasks on
a 1-day plan come out ordered A@09:00, B@10:00, C@14:00. -/
theorem per_day_sorted_stable_witness :
    List.Pairwise (fun a b : Event =>
        time_str_to_minutes a.start_time ≤ time_str_to_minutes b.start_time)
      [{ title := "A", start_time := "09:00", duration_minutes := 60,
         day := "Monday", type := "task" },
       { title := "B", start_time := "10:00", duration_minutes := 60,
         day := "Monday", type := "task" },
       { title := "C", start_time := "14:00", duration_minutes := 30,
         day := "Monday", type := "task" }] :=
  (per_day_sorted_stable
    [{ title := some "A", duration_minutes := some 60,
       preferred_time_block := some "morning" },
     { title := some "B", duration_minutes := some 60,
       preferred_time_block := some "morning" },
     { title := some "C", duration_minutes := some 30,
       preferred_time_block := some "afternoon" }]
    [] 1
    { schedule :=
        [("Monday",
          [{ title := "A", start_time := "09:00", duration_minutes := 60,
             day := "Monday", type := "task" },
           { title := "B", start_time := "10:00", duration_minutes := 60,
             day := "Monday", type := "task" },
           { title := "C", start_time := "14:00", duration_minutes := 30,
             day := "Monday", type := "task" }])],
      conflicts_resolved := 1, total_events := 3 }
    (by rfl)).1 _ (List.mem_singleton.2 rfl)

/-! ## Task-distribution lemmas -/

theorem foldl_placeTaskStep_fst (d : String) :
    ∀ (ts : List Task) (evs : List Event) (cr : Nat),
      ((ts.foldl (placeTaskStep d) (evs, cr)).1) = placeEvs d evs ts
  | [], evs, cr => rfl
  | t :: ts, evs, cr => by
    rw [List.foldl_cons, placeEvs]
    exact foldl_placeTaskStep_fst d ts _ _

theorem placeEvs_length (d : String) :
    ∀ (ts : List Task) (evs : List Event),
      (placeEvs d evs ts).length = evs.length + ts.length
  | [], evs => rfl
  | t :: ts, evs => by
    rw [placeEvs, placeEvs_length d ts]
    simp
    omega

theorem placeEvs_titles (d : String) :
    ∀ (ts : List Task) (evs : List Event),
      (placeEvs d evs ts).map Event.title
        = evs.map Event.title ++ ts.map (fun t => t.title.getD "Task")
  | [], evs => by simp [placeEvs]
  | t :: ts, evs => by
    rw [placeEvs, placeEvs_titles d ts]
    simp [placedTaskEvent, create_event_local]

theorem placeEvs_mem (d : String) :
    ∀ (ts : List Task) (evs : List Event) (e : Event),
      e ∈ placeEvs d evs ts →
      e ∈ evs ∨ (e.type = "task" ∧ ∃ evs2 t, t ∈ ts ∧ e = (placedTaskEvent d evs2 t).1)
  | [], evs, e => fun h => Or.inl h
  | t :: ts, evs, e => by
    intro h
    rcases placeEvs_mem d ts _ e h with h1 | ⟨hty, evs2, t2, ht2, he⟩
    · rcases List.mem_append.1 h1 with h2 | h2
      · exact Or.inl h2
      · refine Or.inr ⟨?_, evs, t, List.mem_cons_self t ts, (List.mem_singleton.1 h2)⟩
        rw [List.mem_singleton.1 h2]
        rfl
    · exact Or.inr ⟨hty, evs2, t2, List.mem_cons_of_mem t ht2, he⟩

/-- Closed form of `sumQuota`. -/
theorem sumQuota_closed (pd rq : Nat) :
    ∀ (j i : Nat), sumQuota pd rq i j = j * pd + (min (i + j) rq - min i rq)
  | 0, i => by simp [sumQuota]
  | j + 1, i => by
    rw [sumQuota, sumQuota_closed pd rq j (i + 1), Nat.succ_mul]
    by_cases h : i < rq
    · simp only [if_pos h]; omega
    · simp only [if_neg h]; omega

theorem taskDays_getElem (pd rq : Nat) :
    ∀ (ds : List String) (i : Nat) (rem : List Task) (cr : Nat) (j : Nat),
      (taskDays pd rq i ds rem cr).1[j]? =
        (ds[j]?).map (fun dn =>
          (dn, placeEvs dn []
            ((rem.drop (sumQuota pd rq i j)).take
              (pd + (if i + j < rq then 1 else 0)))))
  | [], i, rem, cr, j => by simp [taskDays]
  | d :: ds, i, rem, cr, 0 => by
    simp only [taskDays]
    rw [foldl_placeTaskStep_fst]
    simp [sumQuota]
  | d :: ds, i, rem, cr, j + 1 => by
    simp only [taskDays]
    rw [List.getElem?_cons_succ, List.getElem?_cons_succ,
      taskDays_getElem pd rq ds (i + 1) _ _ j]
    have h1 : i + 1 + j = i + (j + 1) := by omega
    have h2 : ∀ l : List Task,
        (l.drop (pd + (if i < rq then 1 else 0))).drop (sumQuota pd rq (i + 1) j)
          = l.drop (sumQuota pd rq i (j + 1)) := by
      intro l
      rw [List.drop_drop, sumQuota]
    simp only [h1, h2]

/-! ## Meal-phase structure lemmas -/

theorem appendDay_getElem (s : List (String × List Event)) (d : String)
    (ev : Event) (j : Nat) :
    (appendDay s d ev)[j]? =
      (s[j]?).map (fun pr => if pr.1 == d then (pr.1, pr.2 ++ [ev]) else pr) := by
  simp [appendDay, List.getElem?_map]

theorem placeMealsOfDay_pointwise (day : String) :
    ∀ (ms : List Meal) (sched : List (String × List Event)) (cr : Nat)
      (s2 : List (String × List Event)) (cr2 : Nat),
      placeMealsOfDay day sched cr ms = some (s2, cr2) →
      ∀ (j : Nat) (d1 : String) (e1 : List Event), sched[j]? = some (d1, e1) →
        ∃ suf, s2[j]? = some (d1, e1 ++ suf) ∧ ∀ e ∈ suf, e.type = "meal"
  | [], sched, cr, s2, cr2 => by
    intro h j d1 e1 hj
    simp only [placeMealsOfDay, Option.some.injEq, Prod.mk.injEq] at h
    exact ⟨[], by simp [← h.1, hj], by simp⟩
  | m :: ms, sched, cr, s2, cr2 => by
    intro h j d1 e1 hj
    simp only [placeMealsOfDay] at h
    split at h
    · exact absurd h (by simp)
    next evs hevs =>
      have hstep : (appendDay sched day (placedMealEvent day evs m).1)[j]? =
          some (if d1 = day then (d1, e1 ++ [(placedMealEvent day evs m).1])
                else (d1, e1)) := by
        rw [appendDay_getElem, hj]
        by_cases hd : d1 = day <;> simp [hd]
      by_cases hd : d1 = day
      · rw [if_pos hd] at hstep
        obtain ⟨suf, hsuf, hm⟩ :=
          placeMealsOfDay_pointwise day ms _ _ s2 cr2 h j d1 _ hstep
        refine ⟨(placedMealEvent day evs m).1 :: suf, by simpa using hsuf, ?_⟩
        intro e he
        rcases List.mem_cons.1 he with rfl | he2
        · rfl
        · exact hm e he2
      · rw [if_neg hd] at hstep
        exact placeMealsOfDay_pointwise day ms _ _ s2 cr2 h j d1 e1 hstep

theorem mealPhase_pointwise (days : List String) :
    ∀ (mds : List MealDay) (sched : List (String × List Event)) (cr : Nat)
      (s2 : List (String × List Event)) (cr2 : Nat),
      mealPhase days sched cr mds = some (s2, cr2) →
      ∀ (j : Nat) (d1 : String) (e1 : List Event), sched[j]? = some (d1, e1) →
        ∃ suf, s2[j]? = some (d1, e1 ++ suf) ∧ ∀ e ∈ suf, e.type = "meal"
  | [], sched, cr, s2, cr2 => by
    intro h j d1 e1 hj
    simp only [mealPhase, Option.some.injEq, Prod.mk.injEq] at h
    exact ⟨[], by simp [← h.1, hj], by simp⟩
  | md :: mds, sched, cr, s2, cr2 => by
    intro h j d1 e1 hj
    simp only [mealPhase] at h
    split at h
    · exact absurd h (by simp)
    next s1 cr1 heq =>
      obtain ⟨suf1, hsuf1, hm1⟩ :=
        placeMealsOfDay_pointwise _ md.meals sched cr s1 cr1 heq j d1 e1 hj
      obtain ⟨suf2, hsuf2, hm2⟩ :=
        mealPhase_pointwise days mds s1 cr1 s2 cr2 h j d1 _ hsuf1
      refine ⟨suf1 ++ suf2, by simpa using hsuf2, ?_⟩
      intro e he
      rcases List.mem_append.1 he with h1 | h2
      · exact hm1 e h1
      · exact hm2 e h2

/-! ## Total-length accounting -/

theorem appendDay_not_mem (d : String) (ev : Event) :
    ∀ s : List (String × List Event), d ∉ s.map Prod.fst →
      appendDay s d ev = s
  | [], _ => rfl
  | p :: rest, h => by
    have h1 : ¬ p.1 = d := fun he => h (by simp [he])
    have h2 : d ∉ rest.map Prod.fst := fun he => h (by simp [he])
    show (if p.1 == d then (p.1, p.2 ++ [ev]) else p) :: appendDay rest d ev
        = p :: rest
    rw [if_neg (by simpa using h1), appendDay_not_mem d ev rest h2]

theorem appendDay_totalLen (d : String) (ev : Event) :
    ∀ s : List (String × List Event), (s.map Prod.fst).Nodup →
      d ∈ s.map Prod.fst →
      totalLen (appendDay s d ev) = totalLen s + 1
  | [], _, hmem => absurd hmem (by simp)
  | p :: rest, hnd, hmem => by
    simp only [List.map_cons, List.nodup_cons] at hnd
    simp only [List.map_cons] at hmem
    show totalLen ((if p.1 == d then (p.1, p.2 ++ [ev]) else p) :: appendDay rest d ev)
        = totalLen (p :: rest) + 1
    by_cases hp : p.1 = d
    · rw [if_pos (by simpa using hp), appendDay_not_mem d ev rest (hp ▸ hnd.1)]
      simp only [totalLen, List.map_cons, List.sum_cons, List.length_append,
        List.length_singleton]
      omega
    · have hmem2 : d ∈ rest.map Prod.fst := by
        rcases List.mem_cons.1 hmem with he | he
        · exact absurd he.symm hp
        · exact he
      rw [if_neg (by simpa using hp)]
      have hrec := appendDay_totalLen d ev rest hnd.2 hmem2
      simp only [totalLen, List.map_cons, List.sum_cons] at hrec ⊢
      omega

theorem lookupDay_mem {s : List (String × List Event)} {d : String}
    {evs : List Event} (h : lookupDay s d = some evs) : d ∈ s.map Prod.fst := by
  unfold lookupDay at h
  obtain ⟨pr, hpr, -⟩ := Option.map_eq_some'.1 h
  have hmem := List.mem_of_find?_eq_some hpr
  have hbeq := List.find?_some hpr
  have hpd : pr.1 = d := by simpa using hbeq
  exact hpd ▸ List.mem_map_of_mem Prod.fst hmem

theorem placeMealsOfDay_totalLen (day : String) :
    ∀ (ms : List Meal) (sched : List (String × List Event)) (cr : Nat)
      (s2 : List (String × List Event)) (cr2 : Nat),
      placeMealsOfDay day sched cr ms = some (s2, cr2) →
      (sched.map Prod.fst).Nodup →
      totalLen s2 = totalLen sched + ms.length
  | [], sched, cr, s2, cr2 => by
    intro h _
    simp only [placeMealsOfDay, Option.some.injEq, Prod.mk.injEq] at h
    simp [← h.1]
  | m :: ms, sched, cr, s2, cr2 => by
    intro h hnd
    simp only [placeMealsOfDay] at h
    split at h
    · exact absurd h (by simp)
    next evs hevs =>
      have hmem := lookupDay_mem hevs
      have h1 := appendDay_totalLen day (placedMealEvent day evs m).1 sched hnd hmem
      have hnd2 : ((appendDay sched day (placedMealEvent day evs m).1).map
          Prod.fst).Nodup := by
        rw [appendDay_keys]; exact hnd
      have h2 := placeMealsOfDay_totalLen day ms _ _ s2 cr2 h hnd2
      rw [h2, h1]
      simp only [List.length_cons]
      omega

theorem mealPhase_totalLen (days : List String) :
    ∀ (mds : List MealDay) (sched : List (String × List Event)) (cr : Nat)
      (s2 : List (String × List Event)) (cr2 : Nat),
      mealPhase days sched cr mds = some (s2, cr2) →
      (sched.map Prod.fst).Nodup →
      totalLen s2 = totalLen sched + (mds.map (fun md => md.meals.length)).sum
  | [], sched, cr, s2, cr2 => by
    intro h _
    simp only [mealPhase, Option.some.injEq, Prod.mk.injEq] at h
    simp [← h.1]
  | md :: mds, sched, cr, s2, cr2 => by
    intro h hnd
    simp only [mealPhase] at h
    split at h
    · exact absurd h (by simp)
    next s1 cr1 heq =>
      have h1 := placeMealsOfDay_totalLen _ md.meals sched cr s1 cr1 heq hnd
      have hnd1 : (s1.map Prod.fst).Nodup := by
        rw [placeMealsOfDay_keys md.meals sched cr _ s1 cr1 heq]; exact hnd
      have h2 := mealPhase_totalLen days mds s1 cr1 s2 cr2 h hnd1
      rw [h2, h1]
      simp only [List.map_cons, List.sum_cons]
      omega

theorem taskDays_totalLen (pd rq : Nat) :
    ∀ (ds : List String) (i : Nat) (rem : List Task) (cr : Nat),
      totalLen (taskDays pd rq i ds rem cr).1
        = min (sumQuota pd rq i ds.length) rem.length
  | [], i, rem, cr => by simp [taskDays, totalLen, sumQuota]
  | d :: ds, i, rem, cr => by
    simp only [taskDays, List.length_cons]
    show totalLen ((d, ((rem.take _).foldl (placeTaskStep d) ([], cr)).1) :: _) = _
    rw [sumQuota]
    simp only [totalLen, List.map_cons, List.sum_cons]
    rw [foldl_placeTaskStep_fst, placeEvs_length]
    have hrec := taskDays_totalLen pd rq ds (i + 1)
      (rem.drop (pd + (if i < rq then 1 else 0)))
      ((rem.take (pd + (if i < rq then 1 else 0))).foldl (placeTaskStep d) ([], cr)).2
    simp only [totalLen] at hrec
    rw [hrec]
    simp only [List.length_take, List.length_drop, List.length_nil]
    omega

theorem taskPhase_totalLen (days : List String) (hd : days ≠ [])
    (ts : List Task) : totalLen (taskPhase days ts).1 = ts.length := by
  unfold taskPhase
  split
  next hemp =>
    have hts : ts = [] := List.isEmpty_iff.1 hemp
    subst hts
    simp [totalLen, List.map_map, Function.comp_def]
  next hemp =>
    rw [taskDays_totalLen, sumQuota_closed]
    have hpos : 0 < days.length := List.length_pos.2 hd
    have h1 := Nat.div_add_mod ts.length days.length
    have h2 : ts.length % days.length < days.length := Nat.mod_lt _ hpos
    omega

theorem totalLen_map_isort (s : List (String × List Event)) :
    totalLen (s.map (fun q => (q.1, isortEvents q.2))) = totalLen s := by
  induction s with
  | nil => rfl
  | cons p rest ih =>
    simp only [List.map_cons, totalLen, List.sum_cons] at ih ⊢
    rw [(isort_perm p.2).length_eq, ih]

/-! ## Claim C5 — total event conservation -/

/-- C5: for every run that returns (no `KeyError`), `total_events` equals the
number of input tasks plus the total number of meal entries across all input
meal-day records — every proposed item is placed exactly once. -/
theorem total_events_conservation (tasks : List Task) (meals : List MealDay)
    (p : Int) (r : SchedResult) (h : create_schedule tasks meals p = some r) :
    r.total_events = tasks.length + (meals.map (fun md => md.meals.length)).sum := by
  unfold create_schedule at h
  dsimp only at h
  split at h
  · exact absurd h (by simp)
  next s2 cr2 heq =>
    cases h
    show totalLen (s2.map fun q => (q.1, isortEvents q.2)) = _
    rw [totalLen_map_isort]
    have hdays_ne : DAYS.take (max 1 (min 7 p)).toNat ≠ [] := by
      intro hnil
      have hlen := congrArg List.length hnil
      rw [List.length_take] at hlen
      simp only [DAYS, List.length_cons, List.length_nil] at hlen
      omega
    have hnd : ((taskPhase (DAYS.take (max 1 (min 7 p)).toNat) tasks).1.map
        Prod.fst).Nodup := by
      rw [taskPhase_keys]
      exact List.Nodup.sublist (List.take_sublist _ _) (by decide)
    rw [mealPhase_totalLen _ meals _ _ s2 cr2 heq hnd,
      taskPhase_totalLen _ hdays_ne]

/-- C5 witness: 3 tasks and 1 meal on a 1-day plan give `total_events = 4`. -/
theorem total_events_conservation_witness :
    (SchedResult.mk
        [("Monday",
          [{ title := "Eggs (breakfast)", start_time := "08:00",
             duration_minutes := 30, day := "Monday", type := "meal" },
           { title := "A", start_time := "09:00", duration_minutes := 60,
             day := "Monday", type := "task" },
           { title := "B", start_time := "10:00", duration_minutes := 60,
             day := "Monday", type := "task" },
           { title := "C", start_time := "14:00", duration_minutes := 30,
             day := "Monday", type := "task" }])]
        1 4).total_events
      = ([{ title := some "A", duration_minutes := some 60,
            preferred_time_block := some "morning" },
          { title := some "B", duration_minutes := some 60,
            preferred_time_block := some "morning" },
          { title := some "C", duration_minutes := some 30,
            preferred_time_block := some "afternoon" }] : List Task).length +
        (([{ day := some "Monday", day_name := none, day_index := none,
             meals := [{ type := some "breakfast", name := some "Eggs",
                         duration_minutes := none }] }] : List MealDay).map
          (fun md => md.meals.length)).sum :=
  total_events_conservation
    [{ title := some "A", duration_minutes := some 60,
       preferred_time_block := some "morning" },
     { title := some "B", duration_minutes := some 60,
       preferred_time_block := some "morning" },
     { title := some "C", duration_minutes := some 30,
       preferred_time_block := some "afternoon" }]
    [{ day := some "Monday", day_name := none, day_index := none,
       meals := [{ type := some "breakfast", name := some "Eggs",
                   duration_minutes := none }] }]
    1 _ (by rfl)

/-! ## Claim C4 — round-robin quotas -/

theorem taskPhase_getElem (days : List String) (tasks : List Task) (i : Nat) :
    (taskPhase days tasks).1[i]? =
      (days[i]?).map (fun dn =>
        (dn, placeEvs dn []
          ((tasks.drop (sumQuota (tasks.length / days.length)
              (tasks.length % days.length) 0 i)).take
            (tasks.length / days.length +
              (if 0 + i < tasks.length % days.length then 1 else 0))))) := by
  unfold taskPhase
  split
  next hemp =>
    have hts : tasks = [] := List.isEmpty_iff.1 hemp
    subst hts
    rw [List.getElem?_map]
    simp [placeEvs]
  next => rw [taskDays_getElem]

/-- The round-robin slice never runs out of tasks: offset of day `i` plus its
quota stays within `n` whenever `i` is an active-day index. -/
theorem quota_within (n d i : Nat) (hd : 0 < d) (hi : i < d) :
    i * (n / d) + min i (n % d) + (n / d + (if i < n % d then 1 else 0)) ≤ n := by
  have hdm := Nat.div_add_mod n d
  have hmul : (i + 1) * (n / d) ≤ d * (n / d) :=
    Nat.mul_le_mul_right _ (by omega)
  rw [Nat.succ_mul] at hmul
  have hrq : n % d < d := Nat.mod_lt _ hd
  by_cases hir : i < n % d
  · simp only [if_pos hir]
    omega
  · simp only [if_neg hir]
    omega

/-- C4: day `i` (0-indexed over the active days) of every returned schedule
holds exactly `⌊n/d⌋ + 1` task events when `i < n mod d`, else `⌊n/d⌋`
(extras on the earliest days), and the task phase fills day `i` with exactly
the input tasks of indices `i·⌊n/d⌋ + min i (n mod d), …` — consumed
strictly in input order. -/
theorem round_robin_quota (tasks : List Task) (meals : List MealDay)
    (p : Int) (r : SchedResult) (h : create_schedule tasks meals p = some r) :
    ∀ (i : Nat) (dn : String) (evs : List Event),
      (r.schedule[i]? = some (dn, evs) →
        (evs.filter (fun e => e.type == "task")).length =
          tasks.length / (max 1 (min 7 p)).toNat +
            (if i < tasks.length % (max 1 (min 7 p)).toNat then 1 else 0)) ∧
      ((taskPhase (DAYS.take (max 1 (min 7 p)).toNat) tasks).1[i]?
          = some (dn, evs) →
        evs.map Event.title =
          ((tasks.drop (i * (tasks.length / (max 1 (min 7 p)).toNat) +
              min i (tasks.length % (max 1 (min 7 p)).toNat))).take
            (tasks.length / (max 1 (min 7 p)).toNat +
              (if i < tasks.length % (max 1 (min 7 p)).toNat then 1 else 0))).map
            (fun t => t.title.getD "Task")) := by
  intro i dn evs
  have hdlen : (DAYS.take (max 1 (min 7 p)).toNat).length
      = (max 1 (min 7 p)).toNat := by
    rw [List.length_take]
    simp only [DAYS, List.length_cons, List.length_nil]
    omega
  have hsq : sumQuota (tasks.length / (max 1 (min 7 p)).toNat)
      (tasks.length % (max 1 (min 7 p)).toNat) 0 i
      = i * (tasks.length / (max 1 (min 7 p)).toNat) +
        min i (tasks.length % (max 1 (min 7 p)).toNat) := by
    rw [sumQuota_closed]
    omega
  constructor
  · intro h1
    unfold create_schedule at h
    dsimp only at h
    split at h
    · exact absurd h (by simp)
    next s2 cr2 heq =>
      cases h
      rw [List.getElem?_map] at h1
      obtain ⟨q, hq, hfq⟩ := Option.map_eq_some'.1 h1
      have hevs : evs = isortEvents q.2 := (congrArg Prod.snd hfq).symm
      have his2 : i < s2.length := by
        by_contra hge
        rw [List.getElem?_eq_none (by omega)] at hq
        exact absurd hq (by simp)
      have hlen_eq : s2.length =
          (taskPhase (DAYS.take (max 1 (min 7 p)).toNat) tasks).1.length := by
        have hk := mealPhase_keys _ meals _ _ s2 cr2 heq
        have hk2 := congrArg List.length hk
        simpa using hk2
      have hi : i < (DAYS.take (max 1 (min 7 p)).toNat).length := by
        have hk3 := congrArg List.length
          (taskPhase_keys (DAYS.take (max 1 (min 7 p)).toNat) tasks)
        simp only [List.length_map] at hk3
        omega
      obtain ⟨dd, hdd⟩ : ∃ dd, (DAYS.take (max 1 (min 7 p)).toNat)[i]? = some dd :=
        ⟨_, List.getElem?_eq_getElem hi⟩
      have hs1v : (taskPhase (DAYS.take (max 1 (min 7 p)).toNat) tasks).1[i]? =
          some (dd, placeEvs dd []
            ((tasks.drop (sumQuota
                (tasks.length / (max 1 (min 7 p)).toNat)
                (tasks.length % (max 1 (min 7 p)).toNat) 0 i)).take
              (tasks.length / (max 1 (min 7 p)).toNat +
                (if 0 + i < tasks.length % (max 1 (min 7 p)).toNat
                 then 1 else 0)))) := by
        rw [taskPhase_getElem, hdd, hdlen]
        rfl
      obtain ⟨suf, hsuf, hm⟩ :=
        mealPhase_pointwise _ meals _ _ s2 cr2 heq i dd _ hs1v
      rw [hq] at hsuf
      have hq2 : q = (dd, placeEvs dd []
          ((tasks.drop (sumQuota
              (tasks.length / (max 1 (min 7 p)).toNat)
              (tasks.length % (max 1 (min 7 p)).toNat) 0 i)).take
            (tasks.length / (max 1 (min 7 p)).toNat +
              (if 0 + i < tasks.length % (max 1 (min 7 p)).toNat
               then 1 else 0))) ++ suf) := by
        simpa using hsuf
      have hlen_isort : ∀ l : List Event,
          ((isortEvents l).filter (fun e => e.type == "task")).length
            = (l.filter (fun e => e.type == "task")).length :=
        fun l => ((isort_perm l).filter (fun e => e.type == "task")).length_eq
      rw [hevs, hq2, hlen_isort, List.filter_append]
      have hsuf_nil : suf.filter (fun e => e.type == "task") = [] := by
        rw [List.filter_eq_nil_iff]
        intro e he
        rw [hm e he]
        simp
      have hself : (placeEvs dd []
          ((tasks.drop (sumQuota
              (tasks.length / (max 1 (min 7 p)).toNat)
              (tasks.length % (max 1 (min 7 p)).toNat) 0 i)).take
            (tasks.length / (max 1 (min 7 p)).toNat +
              (if 0 + i < tasks.length % (max 1 (min 7 p)).toNat
               then 1 else 0)))).filter (fun e => e.type == "task")
          = placeEvs dd []
          ((tasks.drop (sumQuota
              (tasks.length / (max 1 (min 7 p)).toNat)
              (tasks.length % (max 1 (min 7 p)).toNat) 0 i)).take
            (tasks.length / (max 1 (min 7 p)).toNat +
              (if 0 + i < tasks.length % (max 1 (min 7 p)).toNat
               then 1 else 0))) := by
        rw [List.filter_eq_self]
        intro e he
        rcases placeEvs_mem dd _ [] e he with h0 | ⟨hty, -⟩
        · simp at h0
        · rw [hty]
          decide
      rw [hsuf_nil, hself, List.append_nil, placeEvs_length]
      rw [List.length_take, List.length_drop, hsq]
      have hwithin := quota_within tasks.length (max 1 (min 7 p)).toNat i
        (by omega) (by omega)
      simp only [List.length_nil, Nat.zero_add] at hwithin ⊢
      generalize hB : tasks.length % (max 1 (min 7 p)).toNat = B at hwithin ⊢
      generalize hA : tasks.length / (max 1 (min 7 p)).toNat = A at hwithin ⊢
      by_cases hir : i < B
      · simp only [if_pos hir] at hwithin ⊢
        generalize hX : i * A = X at hwithin ⊢
        omega
      · simp only [if_neg hir] at hwithin ⊢
        generalize hX : i * A = X at hwithin ⊢
        omega
  · intro h2
    rw [taskPhase_getElem, hdlen] at h2
    obtain ⟨dd, hdd, hfq⟩ := Option.map_eq_some'.1 h2
    have hevs : evs = placeEvs dd []
        ((tasks.drop (sumQuota
            (tasks.length / (max 1 (min 7 p)).toNat)
            (tasks.length % (max 1 (min 7 p)).toNat) 0 i)).take
          (tasks.length / (max 1 (min 7 p)).toNat +
            (if 0 + i < tasks.length % (max 1 (min 7 p)).toNat
             then 1 else 0))) := (congrArg Prod.snd hfq).symm
    rw [hevs, placeEvs_titles, hsq]
    simp only [List.map_nil, List.nil_append, Nat.zero_add]

/-- C4 witness: 3 tasks over 2 active days — Monday gets 2 tasks (A, B in
input order), Tuesday gets 1 (C). -/
theorem round_robin_quota_witness :
    (([⟨"A", "09:00", 60, "Monday", "task"⟩,
       ⟨"B", "10:00", 60, "Monday", "task"⟩] : List Event).filter
        (fun e => e.type == "task")).length = 2 ∧
    ([⟨"C", "14:00", 30, "Tuesday", "task"⟩] : List Event).map Event.title
      = ["C"] := by
  have h := round_robin_quota
    [⟨some "A", some 60, some "morning"⟩, ⟨some "B", some 60, some "morning"⟩,
     ⟨some "C", some 30, some "afternoon"⟩] [] 2
    (SchedResult.mk
      [("Monday", [⟨"A", "09:00", 60, "Monday", "task"⟩,
                   ⟨"B", "10:00", 60, "Monday", "task"⟩]),
       ("Tuesday", [⟨"C", "14:00", 30, "Tuesday", "task"⟩])] 1 3)
    (by rfl)
  constructor
  · exact ((h 0 "Monday" _).1 (by rfl)).trans (by decide)
  · exact ((h 1 "Tuesday" _).2 (by rfl)).trans (by decide)

/-! ## Claim C3 — start-time format -/

theorem time_map_HHMM {k v : String} (h : time_map k = some v) :
    isHHMM v = true := by
  unfold time_map at h
  obtain ⟨pr, hpr, hv⟩ := Option.map_eq_some'.1 h
  have hmem := List.mem_of_find?_eq_some hpr
  have hall : ∀ pr ∈ time_map_entries, isHHMM pr.2 = true := by decide
  rw [← hv]
  exact hall pr hmem

theorem isHHMM_colon00 (a : String) (ha : isTwoDigits a = true) :
    isHHMM (a ++ ":00") = true := by
  obtain ⟨x, y, hxy, hx, hy⟩ := isTwoDigits_exists ha
  have hd2 : (a ++ ":00").data = [x, y, ':', '0', '0'] := by
    simp [String.data_append, hxy]
  simp [isHHMM, hd2, hx, hy]

theorem defaultDaySlot_HHMM (day : String) :
    isHHMM (defaultDaySlot day) = true := by
  unfold defaultDaySlot
  refine isHHMM_colon00 _ ?_
  refine (fmt_facts _ ?_).2.2
  have : ((DAYS.findIdx? (fun d => d == day)).getD 0) % 3 < 3 :=
    Nat.mod_lt _ (by omega)
  omega

theorem mealStart_HHMM (meal : Meal) : isHHMM (mealStart meal) = true := by
  unfold mealStart
  cases htm : time_map (meal.type.getD "dinner") with
  | none => decide
  | some v => exact time_map_HHMM htm

theorem taskPreferredStart_good (day : String) (t : Task) :
    isHHMM (taskPreferredStart day t) = true ∨
      ∃ s, t.preferred_time_block = some s ∧ s.data.contains ':' = true ∧
        taskPreferredStart day t = s := by
  cases htm : time_map (t.preferred_time_block.getD "morning") with
  | some v =>
    refine Or.inl ?_
    have hv : taskPreferredStart day t = v := by
      simp [taskPreferredStart, htm]
    rw [hv]
    exact time_map_HHMM htm
  | none =>
    by_cases hc : (t.preferred_time_block.getD "morning").data ≠ [] ∧
        (t.preferred_time_block.getD "morning").data.contains ':' = true
    · cases ht : t.preferred_time_block with
      | some s =>
        refine Or.inr ⟨s, rfl, ?_, ?_⟩
        · have h2 := hc.2
          rw [ht] at h2
          simpa using h2
        · simp only [taskPreferredStart, htm, suggest_time_slot]
          rw [if_pos hc]
          simp [ht]
      | none =>
        rw [ht] at htm
        exact absurd htm (by decide)
    · refine Or.inl ?_
      simp only [taskPreferredStart, htm, suggest_time_slot]
      rw [if_neg hc, if_neg (by simp [htm])]
      exact defaultDaySlot_HHMM day

theorem resolveStart_fst (evs : List Event) (s : String) (dur : Int)
    (probes : List Int) :
    (resolveStart evs s dur probes).1 = s ∨
      ∃ m, (resolveStart evs s dur probes).1 = minutes_to_time_str m := by
  unfold resolveStart
  by_cases hc : (detect_conflicts evs s dur).isEmpty
  · rw [if_pos hc]
    exact Or.inl rfl
  · rw [if_neg hc]
    rw [findFreeShift_eq_find]
    cases hf : (probes.find? (fun off =>
        (detect_conflicts evs (minutes_to_time_str (time_str_to_minutes s + off))
          dur).isEmpty)) with
    | none => exact Or.inl rfl
    | some off => exact Or.inr ⟨time_str_to_minutes s + off, rfl⟩

theorem placedTaskEvent_start_good (day : String) (evs : List Event) (t : Task) :
    isHHMM (placedTaskEvent day evs t).1.start_time = true ∨
      ∃ s, t.preferred_time_block = some s ∧ s.data.contains ':' = true ∧
        (placedTaskEvent day evs t).1.start_time = s := by
  have hst : (placedTaskEvent day evs t).1.start_time =
      (resolveStart evs (taskPreferredStart day t) (t.duration_minutes.getD 60)
        taskProbes).1 := rfl
  rcases resolveStart_fst evs (taskPreferredStart day t)
      (t.duration_minutes.getD 60) taskProbes with hr | ⟨m, hr⟩
  · rcases taskPreferredStart_good day t with hgood | ⟨s, hp, hcol, hps⟩
    · exact Or.inl (by rw [hst, hr]; exact hgood)
    · exact Or.inr ⟨s, hp, hcol, by rw [hst, hr, hps]⟩
  · exact Or.inl (by rw [hst, hr]; exact isHHMM_minutes m)

theorem placedMealEvent_start_HHMM (day : String) (evs : List Event)
    (meal : Meal) : isHHMM (placedMealEvent day evs meal).1.start_time = true := by
  have hst : (placedMealEvent day evs meal).1.start_time =
      (resolveStart evs (mealStart meal) (mealDuration meal) mealProbes).1 := rfl
  rcases resolveStart_fst evs (mealStart meal) (mealDuration meal) mealProbes
    with hr | ⟨m, hr⟩
  · rw [hst, hr]
    exact mealStart_HHMM meal
  · rw [hst, hr]
    exact isHHMM_minutes m

theorem placeEvs_HHMM (day : String) :
    ∀ (ts : List Task) (evs : List Event),
      (∀ t ∈ ts, ∀ s, t.preferred_time_block = some s →
        s.data.contains ':' = true → isHHMM s = true) →
      (∀ e ∈ evs, isHHMM e.start_time = true) →
      ∀ e ∈ placeEvs day evs ts, isHHMM e.start_time = true
  | [], evs, _, hevs => hevs
  | t :: ts, evs, hts, hevs => by
    refine placeEvs_HHMM day ts _ (fun x hx => hts x (List.mem_cons_of_mem t hx)) ?_
    intro e he
    rcases List.mem_append.1 he with h1 | h2
    · exact hevs e h1
    · rw [List.mem_singleton.1 h2]
      rcases placedTaskEvent_start_good day evs t with hgood | ⟨s, hp, hcol, hps⟩
      · exact hgood
      · rw [hps]
        exact hts t (List.mem_cons_self t ts) s hp hcol

theorem taskDays_HHMM (pd rq : Nat) :
    ∀ (ds : List String) (i : Nat) (rem : List Task) (cr : Nat),
      (∀ t ∈ rem, ∀ s, t.preferred_time_block = some s →
        s.data.contains ':' = true → isHHMM s = true) →
      ∀ pr ∈ (taskDays pd rq i ds rem cr).1, ∀ e ∈ pr.2,
        isHHMM e.start_time = true
  | [], i, rem, cr => by
    intro _ pr hpr
    simp [taskDays] at hpr
  | d :: ds, i, rem, cr => by
    intro hts pr hpr e he
    rw [show (taskDays pd rq i (d :: ds) rem cr).1 =
        (d, placeEvs d [] (rem.take (pd + (if i < rq then 1 else 0)))) ::
          (taskDays pd rq (i + 1) ds
            (rem.drop (pd + (if i < rq then 1 else 0)))
            ((rem.take (pd + (if i < rq then 1 else 0))).foldl
              (placeTaskStep d) ([], cr)).2).1 from by
      simp only [taskDays]
      rw [foldl_placeTaskStep_fst]] at hpr
    rcases List.mem_cons.1 hpr with rfl | hrest
    · exact placeEvs_HHMM d _ []
        (fun x hx => hts x (List.take_subset _ _ hx)) (by simp) e he
    · exact taskDays_HHMM pd rq ds (i + 1) _ _
        (fun x hx => hts x (List.drop_subset _ _ hx)) pr hrest e he

theorem taskPhase_HHMM (days : List String) (tasks : List Task)
    (hts : ∀ t ∈ tasks, ∀ s, t.preferred_time_block = some s →
      s.data.contains ':' = true → isHHMM s = true) :
    ∀ pr ∈ (taskPhase days tasks).1, ∀ e ∈ pr.2,
      isHHMM e.start_time = true := by
  unfold taskPhase
  split
  · intro pr hpr e he
    obtain ⟨d0, hd0, hpr2⟩ := List.mem_map.1 hpr
    rw [← hpr2] at he
    simp at he
  · exact taskDays_HHMM _ _ days 0 tasks 0 hts

theorem appendDay_mem {s : List (String × List Event)} {d : String}
    {ev : Event} {pr2 : String × List Event} (h : pr2 ∈ appendDay s d ev) :
    ∃ pr1 ∈ s, pr2 = pr1 ∨ pr2 = (pr1.1, pr1.2 ++ [ev]) := by
  obtain ⟨pr1, hpr1, heq⟩ := List.mem_map.1 h
  refine ⟨pr1, hpr1, ?_⟩
  by_cases hd : pr1.1 == d
  · right
    rw [← heq]
    simp [hd]
  · left
    rw [← heq]
    simp [hd]

theorem placeMealsOfDay_HHMM (day : String) :
    ∀ (ms : List Meal) (sched : List (String × List Event)) (cr : Nat)
      (s2 : List (String × List Event)) (cr2 : Nat),
      placeMealsOfDay day sched cr ms = some (s2, cr2) →
      (∀ pr ∈ sched, ∀ e ∈ pr.2, isHHMM e.start_time = true) →
      ∀ pr ∈ s2, ∀ e ∈ pr.2, isHHMM e.start_time = true
  | [], sched, cr, s2, cr2 => by
    intro h hinv
    simp only [placeMealsOfDay, Option.some.injEq, Prod.mk.injEq] at h
    exact h.1 ▸ hinv
  | m :: ms, sched, cr, s2, cr2 => by
    intro h hinv
    simp only [placeMealsOfDay] at h
    split at h
    · exact absurd h (by simp)
    next evs hevs =>
      refine placeMealsOfDay_HHMM day ms _ _ s2 cr2 h ?_
      intro pr hpr e he
      obtain ⟨pr1, hpr1, hcases⟩ := appendDay_mem hpr
      rcases hcases with heq1 | heq2
      · exact hinv pr1 hpr1 e (heq1 ▸ he)
      · rw [heq2] at he
        rcases List.mem_append.1 he with h1 | h2
        · exact hinv pr1 hpr1 e h1
        · rw [List.mem_singleton.1 h2]
          exact placedMealEvent_start_HHMM day evs m

theorem mealPhase_HHMM (days : List String) :
    ∀ (mds : List MealDay) (sched : List (String × List Event)) (cr : Nat)
      (s2 : List (String × List Event)) (cr2 : Nat),
      mealPhase days sched cr mds = some (s2, cr2) →
      (∀ pr ∈ sched, ∀ e ∈ pr.2, isHHMM e.start_time = true) →
      ∀ pr ∈ s2, ∀ e ∈ pr.2, isHHMM e.start_time = true
  | [], sched, cr, s2, cr2 => by
    intro h hinv
    simp only [mealPhase, Option.some.injEq, Prod.mk.injEq] at h
    exact h.1 ▸ hinv
  | md :: mds, sched, cr, s2, cr2 => by
    intro h hinv
    simp only [mealPhase] at h
    split at h
    · exact absurd h (by simp)
    next s1 cr1 heq =>
      exact mealPhase_HHMM days mds s1 cr1 s2 cr2 h
        (placeMealsOfDay_HHMM _ md.meals sched cr s1 cr1 heq hinv)

/-- C3 counterexample: a task whose `preferred_time_block` is the explicit
colon-containing string `"9:30"` is passed through verbatim; the returned
schedule contains an event whose `start_time` `"9:30"` is not a zero-padded
two-digit `"HH:MM"` string. -/
theorem start_time_not_padded_counterexample :
    create_schedule
      [{ title := some "T", duration_minutes := some 60,
         preferred_time_block := some "9:30" }] [] 1
      = some (SchedResult.mk
          [("Monday", [⟨"T", "9:30", 60, "Monday", "task"⟩])] 0 1) ∧
    allEventsHHMM [("Monday", [⟨"T", "9:30", 60, "Monday", "task"⟩])]
      = false :=
  ⟨rfl, rfl⟩

/-- C3 (amended): every event of a returned schedule has a zero-padded
`"HH:MM"` start time, provided every colon-containing
`preferred_time_block` string among the input tasks is itself `"HH:MM"`
shaped (such strings are passed through verbatim; all engine-generated
starts are zero-padded). -/
theorem start_time_hhmm_of_colon_blocks_hhmm (tasks : List Task)
    (meals : List MealDay) (p : Int) (r : SchedResult)
    (hblocks : ∀ t ∈ tasks, ∀ s, t.preferred_time_block = some s →
      s.data.contains ':' = true → isHHMM s = true)
    (h : create_schedule tasks meals p = some r) :
    allEventsHHMM r.schedule = true := by
  unfold create_schedule at h
  dsimp only at h
  split at h
  · exact absurd h (by simp)
  next s2 cr2 heq =>
    cases h
    unfold allEventsHHMM
    rw [List.all_eq_true]
    intro pr hpr
    rw [List.all_eq_true]
    intro e he
    obtain ⟨q, hq, hpr2⟩ := List.mem_map.1 hpr
    rw [← hpr2] at he
    have he2 : e ∈ q.2 := (isort_perm q.2).mem_iff.1 he
    exact mealPhase_HHMM _ meals _ _ s2 cr2 heq
      (taskPhase_HHMM _ tasks hblocks) q hq e he2

/-- C3 witness: an explicit `"09:30"` block (already `HH:MM`-shaped) and a
relocated conflict keep every start time zero-padded. -/
theorem start_time_hhmm_witness :
    allEventsHHMM [("Monday", [⟨"T", "09:30", 60, "Monday", "task"⟩])]
      = true :=
  start_time_hhmm_of_colon_blocks_hhmm
    [{ title := some "T", duration_minutes := some 60,
       preferred_time_block := some "09:30" }] [] 1
    (SchedResult.mk [("Monday", [⟨"T", "09:30", 60, "Monday", "task"⟩])] 0 1)
    (by
      intro t ht s hs hcol
      rw [List.mem_singleton.1 ht] at hs
      simp only [Option.some.injEq] at hs
      rw [← hs]
      decide)
    (by rfl)
